import Mathlib

/-!
# Verification of the import-reference resolution engine of `vue-pascalcase-migrator`

A shallow embedding of the core of the repository:

* `src/utils/naming.ts` — `toPascalCase`, `isKebabCase`
* `src/utils/imports.ts` — `resolveAliasImport`, `matchesImport`,
  `replaceImportPath`, `findImportUpdates`, `applyImportUpdates`
* `src/index.ts` — `findKebabCaseFiles`, `renameVueFiles`
* `src/commands/rename-diff.ts` — `createMappingsFromFiles`

Strings are embedded as `List Char`.  The Node.js `path` (posix) functions
used by the source (`resolve`, `dirname`, `basename`, `extname`, `join`) are
embedded following the algorithms of Node's `lib/path.js`.  JavaScript's
`toUpperCase`/`toLowerCase` are embedded on their ASCII fragment, which is
the fragment exercised by kebab-case names; character classes from the
regexes are written as explicit character sets (`[a-z]` etc.).
-/

namespace VPM

/-- Strings of the embedded program, as lists of characters. -/
abbrev Str := List Char

/-- Convenience injection of Lean string literals into the model. -/
def str (s : String) : Str := s.data

/-! ## Character classes and ASCII case mapping -/

/-- The character class `[a-z]` of the regexes in `naming.ts`, as the
explicit set of characters it denotes. -/
def lowerAlphaChars : Str :=
  ['a', 'b', 'c', 'd', 'e', 'f', 'g', 'h', 'i', 'j', 'k', 'l', 'm',
   'n', 'o', 'p', 'q', 'r', 's', 't', 'u', 'v', 'w', 'x', 'y', 'z']

/-- The character class `[0-9]`. -/
def digitChars : Str := ['0', '1', '2', '3', '4', '5', '6', '7', '8', '9']

/-- The character class `[A-Z]` (used by the ASCII case maps). -/
def upperAlphaChars : Str :=
  ['A', 'B', 'C', 'D', 'E', 'F', 'G', 'H', 'I', 'J', 'K', 'L', 'M',
   'N', 'O', 'P', 'Q', 'R', 'S', 'T', 'U', 'V', 'W', 'X', 'Y', 'Z']

def isLowerAlpha (c : Char) : Bool := lowerAlphaChars.contains c

def isDigit (c : Char) : Bool := digitChars.contains c

/-- The character class `[a-z0-9]`. -/
def isLowerAlnum (c : Char) : Bool := isLowerAlpha c || isDigit c

def isUpperAlpha (c : Char) : Bool := upperAlphaChars.contains c

/-- ASCII fragment of JavaScript `String.prototype.toUpperCase`, per character. -/
def jsToUpper (c : Char) : Char :=
  if isLowerAlpha c then Char.ofNat (c.toNat - 32) else c

/-- ASCII fragment of JavaScript `String.prototype.toLowerCase`, per character. -/
def jsToLower (c : Char) : Char :=
  if isUpperAlpha c then Char.ofNat (c.toNat + 32) else c

/-! ## JavaScript string primitives -/

/-- JavaScript `String.prototype.split(sep)` for a one-character separator. -/
def splitOnChar (sep : Char) : Str → List Str
  | [] => [[]]
  | c :: cs =>
    if c = sep then [] :: splitOnChar sep cs
    else
      match splitOnChar sep cs with
      | [] => [[c]]
      | w :: ws => (c :: w) :: ws

/-- Joining with a one-character separator (JS array joining). -/
def joinSep (sep : Char) : List Str → Str
  | [] => []
  | [w] => w
  | w :: w' :: ws => w ++ sep :: joinSep sep (w' :: ws)

/-- Helper for `jsLastIndexOf`: the largest index `≤ i` at which `pat`
starts in `s`, if any. -/
def lastIndexFrom (s pat : Str) : Nat → Option Nat
  | 0 => if pat.isPrefixOf s then some 0 else none
  | i + 1 =>
    if pat.isPrefixOf (s.drop (i + 1)) then some (i + 1) else lastIndexFrom s pat i

/-- JavaScript `String.prototype.lastIndexOf(pat)`; `none` plays the role
of `-1`. -/
def jsLastIndexOf (s pat : Str) : Option Nat := lastIndexFrom s pat s.length

/-! ## Node `path` (posix) -/

/-- The last path component: what remains after stripping trailing `'/'`
characters and then everything up to and including the last `'/'`.
This is `path.posix.basename(p)` and also the region on which
`path.posix.extname` operates. -/
def component (p : Str) : Str :=
  ((p.reverse.dropWhile (· == '/')).takeWhile (· != '/')).reverse

/-- Extension of a (slash-handled) last component, per `path.posix.extname`:
the part of the component from its last `'.'` on, except that a dot at the
very start of the component (hidden file) and the component `".."` yield no
extension. -/
def extOf (comp : Str) : Str :=
  match jsLastIndexOf comp ['.'] with
  | none => []
  | some d => if d = 0 then [] else if comp = ['.', '.'] then [] else comp.drop d

/-- Node `path.posix.extname`. -/
def extname (p : Str) : Str := extOf (component p)

/-- Node `path.posix.basename(p, ext)`: the last component, with the suffix `ext`
removed when `ext` is nonempty and a proper suffix of the component. -/
def basename (p : Str) (ext : Str) : Str :=
  if !ext.isEmpty && ext != component p && ext.isSuffixOf (component p) then
    (component p).take ((component p).length - ext.length)
  else component p

/-- Node `path.posix.dirname`. -/
def dirname (p : Str) : Str :=
  if p = [] then ['.']
  else
    let hasRoot := p.head? == some '/'
    let q := (p.reverse.dropWhile (· == '/')).reverse
    match jsLastIndexOf q ['/'] with
    | some i =>
      if i = 0 then ['/']
      else if hasRoot && i == 1 then ['/', '/']
      else q.take i
    | none => if hasRoot then ['/'] else ['.']

/-- One step of Node's `normalizeString`: fold the next path part onto the
(reversed) accumulator, resolving `"."` and `".."`. -/
def normStep (allowAbove : Bool) (acc : List Str) (part : Str) : List Str :=
  if part = [] ∨ part = ['.'] then acc
  else if part = ['.', '.'] then
    match acc with
    | [] => if allowAbove then [part] else []
    | prev :: rest => if prev = ['.', '.'] then part :: acc else rest
  else part :: acc

/-- Node's `normalizeString`, on already-split parts: resolves `"."` and
`".."`, keeping leading `".."` parts only when `allowAbove` (i.e. for
relative paths). -/
def normalizeParts (allowAbove : Bool) (parts : List Str) : List Str :=
  (parts.foldl (normStep allowAbove) []).reverse

/-- Node `path.posix.resolve(...args)` with the process working directory passed
explicitly as `cwd`: segments are taken from the last absolute argument on
(or from `cwd` when none is absolute), then normalized. -/
def jsResolve (cwd : Str) (args : List Str) : Str :=
  let ka := args.foldl
    (fun acc a => if a.head? == some '/' then ([a], true) else (acc.1 ++ [a], acc.2))
    (([], false) : List Str × Bool)
  let segs := if ka.2 then ka.1 else cwd :: ka.1
  let abs := if ka.2 then true else cwd.head? == some '/'
  let parts := (segs.map (splitOnChar '/')).flatten
  let norm := normalizeParts (!abs) parts
  if abs then '/' :: joinSep '/' norm
  else if norm.isEmpty then ['.'] else joinSep '/' norm

/-- Node `path.posix.normalize`. -/
def jsNormalize (p : Str) : Str :=
  if p = [] then ['.']
  else
    let abs := p.head? == some '/'
    let trailing := p.getLast? == some '/'
    let norm := joinSep '/' (normalizeParts (!abs) (splitOnChar '/' p))
    if norm = [] then
      if abs then ['/'] else if trailing then ['.', '/'] else ['.']
    else
      let norm' := if trailing then norm ++ ['/'] else norm
      if abs then '/' :: norm' else norm'

/-- Node posix path joining of several segments. -/
def jsJoin (args : List Str) : Str :=
  let joined := joinSep '/' (args.filter (fun a => !a.isEmpty))
  if joined = [] then ['.'] else jsNormalize joined

/-! ## `src/utils/naming.ts` -/

/-- The regex fragment `[a-z][a-z0-9]*` (a leading kebab word). -/
def firstWordOk (w : Str) : Bool :=
  match w with
  | [] => false
  | c :: cs => isLowerAlpha c && cs.all isLowerAlnum

/-- The regex fragment `[a-z0-9]+` (a subsequent kebab word). -/
def plusWordOk (w : Str) : Bool := !w.isEmpty && w.all isLowerAlnum

/-- The test `^[a-z][a-z0-9]*(-[a-z0-9]+)+$` on a base name, phrased via the
hyphen decomposition that the regex describes: a leading word and at least
one further nonempty word, all lowercase alphanumeric. -/
def kebabBase (b : Str) : Bool :=
  match splitOnChar '-' b with
  | [] => false
  | w :: ws => firstWordOk w && !ws.isEmpty && ws.all plusWordOk

/-- Function `isKebabCase` from `naming.ts`: tests the base name (directories and
extension stripped) against `^[a-z][a-z0-9]*(-[a-z0-9]+)+$`. -/
def isKebabCase (filename : Str) : Bool :=
  kebabBase (basename filename (extname filename))

/-- One word of `toPascalCase`:
`word.charAt(0).toUpperCase() + word.slice(1).toLowerCase()`. -/
def capitalize (w : Str) : Str :=
  match w with
  | [] => []
  | c :: cs => jsToUpper c :: cs.map jsToLower

/-- Function `toPascalCase` from `naming.ts`: split the extension-stripped base name
on `'-'`, capitalize each word, concatenate, re-append the extension. -/
def toPascalCase (kebabName : Str) : Str :=
  let ext := extname kebabName
  let baseName := basename kebabName ext
  let pascalName := ((splitOnChar '-' baseName).map capitalize).flatten
  pascalName ++ ext

/-! ## `src/utils/imports.ts` — data model -/

structure RenameMapping where
  oldPath : Str
  newPath : Str
  oldName : Str
  newName : Str
deriving DecidableEq, Repr

structure ImportUpdate where
  file : Str
  oldImport : Str
  newImport : Str
  line : Nat
deriving DecidableEq, Repr

/-- The `PathAliases` table, an object whose entries are iterated in insertion order. -/
abbrev PathAliases := List (Str × Str)

def DEFAULT_ALIASES : PathAliases := [(str "@", str "src"), (str "~", str "src")]

/-! ## `src/utils/imports.ts` — matcher and rewriter -/

/-- Function `resolveAliasImport` from `imports.ts`: first alias whose prefix (the
alias itself when it already ends in `'/'`, otherwise the alias plus `'/'`)
starts the specifier, or which equals the specifier, wins; the remainder is
resolved against the alias path under the project root.  (`path.resolve`
never returns an empty string, so the JS truthiness test on the result is
the `Option` test here.) -/
def resolveAliasImport (cwd : Str) (moduleSpecifier : Str) (aliases : PathAliases)
    (projectRoot : Str) : Option Str :=
  match aliases with
  | [] => none
  | (al, aliasPath) :: rest =>
    let alPre := if al.getLast? == some '/' then al else al ++ ['/']
    if alPre.isPrefixOf moduleSpecifier || moduleSpecifier == al then
      some (jsResolve cwd [projectRoot, aliasPath,
        if alPre.isPrefixOf moduleSpecifier then moduleSpecifier.drop alPre.length else []])
    else resolveAliasImport cwd moduleSpecifier rest projectRoot

/-- The cheap first filter of `matchesImport`: the specifier ends with
`'/' + oldName`, or equals `'./' + oldName`, or equals `oldName`. -/
def nameFilter (moduleSpecifier oldName : Str) : Bool :=
  ('/' :: oldName).isSuffixOf moduleSpecifier
    || moduleSpecifier == ('.' :: '/' :: oldName)
    || moduleSpecifier == oldName

/-- Function `matchesImport` from `imports.ts`. -/
def matchesImport (cwd importingFile moduleSpecifier : Str) (mapping : RenameMapping)
    (aliases : PathAliases) (projectRoot : Str) : Bool :=
  if !nameFilter moduleSpecifier mapping.oldName then false
  else
    match resolveAliasImport cwd moduleSpecifier aliases projectRoot with
    | some aliasResolved => aliasResolved == mapping.oldPath
    | none =>
      if moduleSpecifier.head? == some '.' then
        jsResolve cwd [dirname importingFile, moduleSpecifier] == mapping.oldPath
      else false

/-- The resolved absolute path a specifier denotes, if any — the alias
resolution when one applies, otherwise relative resolution for
dot-specifiers.  `matchesImport` is exactly `nameFilter` plus equality of
this with the mapping's `oldPath` (see `matchesImport_characterization`). -/
def resolveRef (cwd importingFile moduleSpecifier : Str) (aliases : PathAliases)
    (projectRoot : Str) : Option Str :=
  match resolveAliasImport cwd moduleSpecifier aliases projectRoot with
  | some aliasResolved => some aliasResolved
  | none =>
    if moduleSpecifier.head? == some '.' then
      some (jsResolve cwd [dirname importingFile, moduleSpecifier])
    else none

/-- Function `replaceImportPath` from `imports.ts`: splice `newName` over the last
occurrence of `oldName`. -/
def replaceImportPath (moduleSpecifier oldName newName : Str) : Str :=
  match jsLastIndexOf moduleSpecifier oldName with
  | some lastIndex =>
    moduleSpecifier.take lastIndex ++ newName
      ++ moduleSpecifier.drop (lastIndex + oldName.length)
  | none => moduleSpecifier

/-! ## Rename plan builders (`src/index.ts`, `src/commands/rename-diff.ts`) -/

/-- The mapping both builders construct for one accepted file path:
`{ oldPath, newPath = join(dirname, toPascalCase(basename)), oldName = basename,
newName = toPascalCase(basename) }`. -/
def mkMapping (filePath : Str) : RenameMapping :=
  let fileName := component filePath
  let newName := toPascalCase fileName
  ⟨filePath, jsJoin [dirname filePath, newName], fileName, newName⟩

/-- Function `findKebabCaseFiles` from `index.ts`, applied to the list of `.vue`
paths the glob returned: keep those whose base name is kebab-case and build
the mapping.  No check against the target path is performed. -/
def findKebabCaseFiles (vueFiles : List Str) : List RenameMapping :=
  vueFiles.filterMap fun filePath =>
    if isKebabCase (component filePath) then some (mkMapping filePath) else none

/-- Function `createMappingsFromFiles` from `rename-diff.ts`: like
`findKebabCaseFiles` but over an arbitrary file list, skipping inputs whose
(old) path does not exist on disk.  `disk` is the set of existing paths. -/
def createMappingsFromFiles (disk : List Str) (files : List Str) : List RenameMapping :=
  files.filterMap fun filePath =>
    if !disk.contains filePath then none
    else if isKebabCase (component filePath) then some (mkMapping filePath) else none

/-! ## Project model (`ts-morph` reference graph)

A loaded source file is modelled by the references `findImportUpdates` and
`applyImportUpdates` inspect: static import declarations, dynamic `import()`
call arguments (with their quote character), and re-export declarations
(whose module specifier may be absent, e.g. `export { x }`). -/

structure StaticImport where
  line : Nat
  spec : Str
deriving DecidableEq, Repr

structure DynamicImport where
  line : Nat
  quote : Char
  spec : Str
deriving DecidableEq, Repr

structure ReExport where
  line : Nat
  spec : Option Str
deriving DecidableEq, Repr

structure SourceAst where
  statics : List StaticImport
  dynamics : List DynamicImport
  reexports : List ReExport
deriving DecidableEq, Repr

/-- A `ts-morph` `Project`: the loaded source files, keyed by file path. -/
abbrev Project := List (Str × SourceAst)

/-- The updates `findImportUpdates` pushes for one reference: one update per
mapping the specifier matches, in mapping order. -/
def updatesForSpec (cwd filePath spec : Str) (line : Nat)
    (mappings : List RenameMapping) (aliases : PathAliases) (projectRoot : Str) :
    List ImportUpdate :=
  mappings.filterMap fun m =>
    if matchesImport cwd filePath spec m aliases projectRoot then
      some ⟨filePath, spec, replaceImportPath spec m.oldName m.newName, line⟩
    else none

/-- Function `findImportUpdates` from `imports.ts`: for every source file, check the
static imports, then the dynamic imports, then the re-exports, each against
every mapping. -/
def findImportUpdates (cwd : Str) (project : Project) (mappings : List RenameMapping)
    (aliases : PathAliases) (projectRoot : Str) : List ImportUpdate :=
  (project.map fun fa =>
    (fa.2.statics.map fun si =>
      updatesForSpec cwd fa.1 si.spec si.line mappings aliases projectRoot).flatten
    ++ (fa.2.dynamics.map fun di =>
      updatesForSpec cwd fa.1 di.spec di.line mappings aliases projectRoot).flatten
    ++ (fa.2.reexports.map fun re =>
      match re.spec with
      | some sp => updatesForSpec cwd fa.1 sp re.line mappings aliases projectRoot
      | none => []).flatten).flatten

/-- The rewrite `applyImportUpdates` performs at one reference: the first
update (among this file's updates) whose `oldImport` equals the current
specifier text wins; with no such update the specifier is untouched. -/
def rewriteSpec (fileUpdates : List ImportUpdate) (spec : Str) : Str :=
  match fileUpdates.find? (fun u => u.oldImport == spec) with
  | some u => u.newImport
  | none => spec

/-- The per-file pass of `applyImportUpdates`: statics, dynamics (quote character
kept) and re-exports are each rewritten via `rewriteSpec`. -/
def rewriteAst (fileUpdates : List ImportUpdate) (ast : SourceAst) : SourceAst :=
  ⟨ast.statics.map fun si => { si with spec := rewriteSpec fileUpdates si.spec },
   ast.dynamics.map fun di => { di with spec := rewriteSpec fileUpdates di.spec },
   ast.reexports.map fun re =>
     match re.spec with
     | some sp => { re with spec := some (rewriteSpec fileUpdates sp) }
     | none => re⟩

/-- Function `applyImportUpdates` from `imports.ts`: group the updates by file and
rewrite each loaded file with its own group; updates whose file is not in
the project touch nothing. -/
def applyImportUpdates (project : Project) (updates : List ImportUpdate) : Project :=
  project.map fun fa => (fa.1, rewriteAst (updates.filter (fun u => u.file == fa.1)) fa.2)

/-- First source file with the given path, if loaded. -/
def lookupFile (project : Project) (filePath : Str) : Option SourceAst :=
  (project.find? (fun fa => fa.1 == filePath)).map (·.2)

/-- Whether `s` is the current specifier text of some static import,
dynamic-import argument or re-export of `ast` — i.e. whether an update with
`oldImport = s` is recoverable verbatim from the file at rewrite time. -/
def specOccurs (s : Str) (ast : SourceAst) : Bool :=
  ast.statics.any (fun si => si.spec == s)
    || ast.dynamics.any (fun di => di.spec == s)
    || ast.reexports.any (fun re => re.spec == some s)

/-! ## `renameVueFiles` (`src/index.ts`) -/

/-- The `RenameResult` record, restricted to the fields the verified claims speak
about (`fileStats` and `summary` are derived read-only statistics). -/
structure RenameResult where
  mappings : List RenameMapping
  importUpdates : List ImportUpdate
  dryRun : Bool
deriving DecidableEq, Repr

/-- The observable state `renameVueFiles` reads and writes: the `.vue`
files the glob sees under the target directory, and the on-disk source
files (path and parsed content). -/
structure World where
  vueFiles : List Str
  project : Project
deriving DecidableEq, Repr

/-- The `renameFile` loop: each mapping's `oldPath` is moved to its
`newPath` (git mv, or the fs.rename fallback — both are path moves). -/
def renameAll (mappings : List RenameMapping) (project : Project) : Project :=
  mappings.foldl
    (fun pr m => pr.map fun fa => if fa.1 == m.oldPath then (m.newPath, fa.2) else fa)
    project

/-- Effect of the `renameFile` loop on the set of `.vue` paths. -/
def renamePaths (mappings : List RenameMapping) (paths : List Str) : List Str :=
  mappings.foldl
    (fun ps m => ps.map fun p => if p == m.oldPath then m.newPath else p)
    paths

/-- Function `renameVueFiles` from `index.ts`: find the kebab-case files,
compute the import updates, and — only when `dryRun` is false — apply them, save
the project and move the files.  Steps 1–3 only read the world. -/
def renameVueFiles (cwd : Str) (aliases : PathAliases) (projectRoot : Str)
    (dryRun : Bool) (w : World) : RenameResult × World :=
  let mappings := findKebabCaseFiles w.vueFiles
  if mappings.isEmpty then (⟨[], [], dryRun⟩, w)
  else
    let importUpdates := findImportUpdates cwd w.project mappings aliases projectRoot
    let result : RenameResult := ⟨mappings, importUpdates, dryRun⟩
    if dryRun then (result, w)
    else
      let savedProject := applyImportUpdates w.project importUpdates
      (result, ⟨renamePaths mappings w.vueFiles, renameAll mappings savedProject⟩)

/-! ## Character facts -/

theorem mem_lowerAlphaChars {c : Char} (h : isLowerAlpha c = true) : c ∈ lowerAlphaChars := by
  unfold isLowerAlpha at h
  simpa using h

theorem mem_lower_or_digit {c : Char} (h : isLowerAlnum c = true) :
    c ∈ lowerAlphaChars ++ digitChars := by
  unfold isLowerAlnum isLowerAlpha isDigit at h
  simp only [Bool.or_eq_true] at h
  rcases h with h | h <;> simp_all

theorem jsToUpper_outside {c : Char} (h : isLowerAlpha c = true) :
    isLowerAlpha (jsToUpper c) = false ∧ isLowerAlnum (jsToUpper c) = false ∧
      jsToUpper c ≠ '-' ∧ jsToUpper c ≠ '/' := by
  have hm : c ∈ lowerAlphaChars := mem_lowerAlphaChars h
  have hall : lowerAlphaChars.all
      (fun c => !isLowerAlpha (jsToUpper c) && !isLowerAlnum (jsToUpper c)
        && (jsToUpper c != '-') && (jsToUpper c != '/')) = true := by decide
  have hc := List.all_eq_true.mp hall c hm
  simp only [Bool.and_eq_true, Bool.not_eq_true', bne_iff_ne, ne_eq] at hc
  exact ⟨hc.1.1.1, hc.1.1.2, hc.1.2, hc.2⟩

theorem jsToLower_lowerAlnum {c : Char} (h : isLowerAlnum c = true) :
    jsToLower c = c ∧ c ≠ '/' := by
  have hm : c ∈ lowerAlphaChars ++ digitChars := mem_lower_or_digit h
  have hall : (lowerAlphaChars ++ digitChars).all
      (fun c => (jsToLower c == c) && (c != '/')) = true := by decide
  have hc := List.all_eq_true.mp hall c hm
  simp only [Bool.and_eq_true, beq_iff_eq, bne_iff_ne, ne_eq] at hc
  exact hc

/-! ## `splitOnChar` and `joinSep` -/

theorem splitOnChar_ne_nil (sep : Char) (l : Str) : splitOnChar sep l ≠ [] := by
  induction l with
  | nil => simp [splitOnChar]
  | cons c cs ih =>
    by_cases hc : c = sep
    · simp [splitOnChar, hc]
    · simp only [splitOnChar, if_neg hc]
      cases h : splitOnChar sep cs with
      | nil => simp
      | cons w ws => simp

theorem joinSep_splitOnChar (sep : Char) (l : Str) : joinSep sep (splitOnChar sep l) = l := by
  induction l with
  | nil => rfl
  | cons c cs ih =>
    by_cases hc : c = sep
    · simp only [splitOnChar, if_pos hc]
      cases h : splitOnChar sep cs with
      | nil => exact absurd h (splitOnChar_ne_nil _ _)
      | cons w ws =>
        rw [h] at ih
        simp [joinSep, hc, ih]
    · simp only [splitOnChar, if_neg hc]
      cases h : splitOnChar sep cs with
      | nil => exact absurd h (splitOnChar_ne_nil _ _)
      | cons w ws =>
        rw [h] at ih
        cases ws with
        | nil => simpa [joinSep] using ih
        | cons w' ws' => simpa [joinSep] using ih

theorem mem_joinSep {sep : Char} {parts : List Str} {x : Char}
    (hx : x ∈ joinSep sep parts) : x = sep ∨ ∃ w ∈ parts, x ∈ w := by
  induction parts with
  | nil => simp [joinSep] at hx
  | cons w ws ih =>
    cases ws with
    | nil =>
      simp only [joinSep] at hx
      exact Or.inr ⟨w, by simp, hx⟩
    | cons w' ws' =>
      simp only [joinSep, List.mem_append, List.mem_cons] at hx
      rcases hx with h | h | h
      · exact Or.inr ⟨w, by simp, h⟩
      · exact Or.inl h
      · rcases ih h with h' | ⟨u, hu, hxu⟩
        · exact Or.inl h'
        · exact Or.inr ⟨u, by simp [hu], hxu⟩

theorem length_joinSep (sep : Char) (w : Str) (ws : List Str) :
    (joinSep sep (w :: ws)).length = w.length + (ws.map List.length).sum + ws.length := by
  induction ws generalizing w with
  | nil => simp [joinSep]
  | cons w' ws' ih =>
    have := ih w'
    simp only [joinSep, List.length_append, List.length_cons, List.map_cons, List.sum_cons]
    omega

theorem joinSep_head (sep c : Char) (w : Str) (ws : List Str) :
    ∃ t, joinSep sep ((c :: w) :: ws) = c :: t := by
  cases ws <;> simp [joinSep]

/-! ## `jsLastIndexOf` -/

theorem lastIndexFrom_eq_none_iff (s pat : Str) (i : Nat) :
    lastIndexFrom s pat i = none ↔ ∀ j ≤ i, pat.isPrefixOf (s.drop j) = false := by
  induction i with
  | zero =>
    simp only [lastIndexFrom]
    constructor
    · intro h j hj
      interval_cases j
      simp only [List.drop_zero]
      by_cases hp : pat.isPrefixOf s
      · rw [if_pos hp] at h; exact absurd h (by simp)
      · simp only [Bool.not_eq_true] at hp
        exact hp
    · intro h
      have h0 := h 0 le_rfl
      simp only [List.drop_zero] at h0
      rw [if_neg (by simp [h0])]
  | succ i ih =>
    simp only [lastIndexFrom]
    by_cases hp : pat.isPrefixOf (s.drop (i + 1))
    · rw [if_pos hp]
      constructor
      · intro h; exact absurd h (by simp)
      · intro h
        have := h (i + 1) le_rfl
        rw [hp] at this
        exact absurd this (by simp)
    · rw [if_neg hp]
      rw [ih]
      constructor
      · intro h j hj
        rcases Nat.lt_or_ge j (i + 1) with hj' | hj'
        · exact h j (by omega)
        · have : j = i + 1 := by omega
          subst this
          simp only [Bool.not_eq_true] at hp
          exact hp
      · intro h j hj
        exact h j (by omega)

theorem lastIndexFrom_spec {s pat : Str} {i k : Nat}
    (h : lastIndexFrom s pat i = some k) :
    k ≤ i ∧ pat.isPrefixOf (s.drop k) = true ∧
      ∀ j, k < j → j ≤ i → pat.isPrefixOf (s.drop j) = false := by
  induction i with
  | zero =>
    simp only [lastIndexFrom] at h
    by_cases hp : pat.isPrefixOf s
    · rw [if_pos hp] at h
      obtain rfl : k = 0 := by simpa using h.symm
      exact ⟨le_rfl, by simpa using hp, fun j h1 h2 => by omega⟩
    · rw [if_neg hp] at h
      exact absurd h (by simp)
  | succ i ih =>
    simp only [lastIndexFrom] at h
    by_cases hp : pat.isPrefixOf (s.drop (i + 1))
    · rw [if_pos hp] at h
      obtain rfl : k = i + 1 := by simpa using h.symm
      exact ⟨le_rfl, hp, fun j h1 h2 => by omega⟩
    · rw [if_neg hp] at h
      obtain ⟨h1, h2, h3⟩ := ih h
      refine ⟨by omega, h2, fun j hj1 hj2 => ?_⟩
      rcases Nat.lt_or_ge j (i + 1) with hj' | hj'
      · exact h3 j hj1 (by omega)
      · have : j = i + 1 := by omega
        subst this
        simp only [Bool.not_eq_true] at hp
        exact hp

theorem lastIndexFrom_found {s pat : Str} {i : Nat}
    (hfound : pat.isPrefixOf (s.drop i) = true)
    (habove : ∀ j, i < j → pat.isPrefixOf (s.drop j) = false) :
    ∀ i', i ≤ i' → lastIndexFrom s pat i' = some i := by
  intro i' hle
  induction i' with
  | zero =>
    obtain rfl : i = 0 := by omega
    simp only [lastIndexFrom]
    rw [if_pos (by simpa using hfound)]
  | succ i' ih =>
    simp only [lastIndexFrom]
    by_cases h : i = i' + 1
    · subst h
      rw [if_pos hfound]
    · have h1 : pat.isPrefixOf (s.drop (i' + 1)) = false := habove _ (by omega)
      rw [if_neg (by simp [h1])]
      exact ih (by omega)

theorem isPrefixOf_length_le {pat l : Str} (h : pat.isPrefixOf l = true) :
    pat.length ≤ l.length :=
  (List.isPrefixOf_iff_prefix.mp h).length_le

theorem jsLastIndexOf_of_suffix {s pat : Str} (hne : pat ≠ []) (hs : pat <:+ s) :
    jsLastIndexOf s pat = some (s.length - pat.length) := by
  obtain ⟨t, ht⟩ := hs
  have hlen : s.length = t.length + pat.length := by rw [← ht]; simp
  have hsub : s.length - pat.length = t.length := by omega
  have hfound : pat.isPrefixOf (s.drop t.length) = true := by
    rw [← ht, List.drop_left]
    exact List.isPrefixOf_iff_prefix.mpr (List.prefix_refl pat)
  have habove : ∀ j, t.length < j → pat.isPrefixOf (s.drop j) = false := by
    intro j hj
    by_cases hp : pat.isPrefixOf (s.drop j)
    · have := isPrefixOf_length_le hp
      rw [List.length_drop] at this
      have hpat : 0 < pat.length := List.length_pos.mpr hne
      omega
    · simp only [Bool.not_eq_true] at hp
      exact hp
  rw [hsub]
  exact lastIndexFrom_found hfound habove s.length (by omega)

theorem replaceImportPath_of_suffix {s old : Str} (new : Str) (hne : old ≠ [])
    (hs : old <:+ s) : ∀ t, t ++ old = s → replaceImportPath s old new = t ++ new := by
  intro t ht
  have hk : jsLastIndexOf s old = some (s.length - old.length) :=
    jsLastIndexOf_of_suffix hne hs
  subst ht
  have h1 : (t ++ old).length - old.length = t.length := by simp
  rw [h1] at hk
  unfold replaceImportPath
  rw [hk]
  show List.take t.length (t ++ old) ++ new
      ++ List.drop (t.length + old.length) (t ++ old) = t ++ new
  rw [List.take_left]
  have h2 : t.length + old.length = (t ++ old).length := by simp
  rw [h2, List.drop_length, List.append_nil]

theorem occurs_iff_isPrefixOf_drop {s pat : Str} :
    (∃ p q, s = p ++ pat ++ q) ↔ ∃ j, j ≤ s.length ∧ pat.isPrefixOf (s.drop j) = true := by
  constructor
  · rintro ⟨p, q, rfl⟩
    refine ⟨p.length, by simp, ?_⟩
    rw [List.append_assoc, List.drop_left]
    exact List.isPrefixOf_iff_prefix.mpr ⟨q, rfl⟩
  · rintro ⟨j, hj, hpre⟩
    obtain ⟨q, hq⟩ := List.isPrefixOf_iff_prefix.mp hpre
    refine ⟨s.take j, q, ?_⟩
    rw [List.append_assoc, hq, List.take_append_drop]

theorem jsLastIndexOf_none_iff {s pat : Str} :
    jsLastIndexOf s pat = none ↔ ¬∃ p q, s = p ++ pat ++ q := by
  unfold jsLastIndexOf
  rw [lastIndexFrom_eq_none_iff]
  constructor
  · intro h hocc
    obtain ⟨j, hj, hpre⟩ := occurs_iff_isPrefixOf_drop.mp hocc
    rw [h j hj] at hpre
    exact absurd hpre (by simp)
  · intro h j hj
    by_cases hp : pat.isPrefixOf (s.drop j)
    · exact absurd (occurs_iff_isPrefixOf_drop.mpr ⟨j, hj, hp⟩) h
    · simp only [Bool.not_eq_true] at hp
      exact hp

/-- Claim C5: for every specifier `s` and names `oldName`, `newName`, if
`oldName` occurs in `s` then `replaceImportPath s oldName newName` is `s`
with exactly the last occurrence of `oldName` replaced by `newName`, every
character before and after it unchanged; if `oldName` does not occur, the
result is `s` unchanged. -/
theorem replaceImportPath_spec (s old new : Str) :
    (¬(∃ p q, s = p ++ old ++ q) → replaceImportPath s old new = s) ∧
    ((∃ p q, s = p ++ old ++ q) →
      ∃ p q, s = p ++ old ++ q ∧ replaceImportPath s old new = p ++ new ++ q ∧
        ∀ p' q', s = p' ++ old ++ q' → p'.length ≤ p.length) := by
  constructor
  · intro h
    unfold replaceImportPath
    rw [jsLastIndexOf_none_iff.mpr h]
  · intro h
    have hnn : jsLastIndexOf s old ≠ none := fun hn => (jsLastIndexOf_none_iff.mp hn) h
    obtain ⟨k, hk⟩ := Option.ne_none_iff_exists'.mp hnn
    have hk' : lastIndexFrom s old s.length = some k := hk
    obtain ⟨hk1, hk2, hk3⟩ := lastIndexFrom_spec hk'
    obtain ⟨q, hq⟩ := List.isPrefixOf_iff_prefix.mp hk2
    have hdropq : s.drop (k + old.length) = q := by
      have h5 : s.drop (k + old.length) = (s.drop k).drop old.length := by
        rw [List.drop_drop, Nat.add_comm]
      rw [h5, ← hq, List.drop_left]
    refine ⟨s.take k, q, ?_, ?_, ?_⟩
    · rw [List.append_assoc, hq, List.take_append_drop]
    · unfold replaceImportPath
      rw [hk]
      show s.take k ++ new ++ s.drop (k + old.length) = s.take k ++ new ++ q
      rw [hdropq]
    · intro p' q' hs'
      have hj : p'.length ≤ s.length := by
        rw [hs']
        simp only [List.length_append]
        omega
      have hpre : old.isPrefixOf (s.drop p'.length) = true := by
        rw [hs', List.append_assoc, List.drop_left]
        exact List.isPrefixOf_iff_prefix.mpr ⟨q', rfl⟩
      have hlen : (s.take k).length = k := by
        rw [List.length_take]
        omega
      rw [hlen]
      by_contra hcon
      push_neg at hcon
      have hf := hk3 p'.length hcon hj
      rw [hpre] at hf
      exact absurd hf (by simp)

/-- Witness for `replaceImportPath_spec` at `s = "./my-button.vue"`,
`oldName = "my-button"`, `newName = "MyButton"`. -/
theorem replaceImportPath_spec_witness :
    ∃ p q, str "./my-button.vue" = p ++ str "my-button" ++ q ∧
      replaceImportPath (str "./my-button.vue") (str "my-button") (str "MyButton")
        = p ++ str "MyButton" ++ q ∧
      ∀ p' q', str "./my-button.vue" = p' ++ str "my-button" ++ q' →
        p'.length ≤ p.length :=
  (replaceImportPath_spec (str "./my-button.vue") (str "my-button") (str "MyButton")).2
    ⟨str "./", str ".vue", by decide⟩

/-! ## Path-function facts -/

theorem component_no_slash (p : Str) : '/' ∉ component p := by
  unfold component
  intro h
  have h1 := List.mem_reverse.mp h
  have h2 := List.mem_takeWhile_imp h1
  simp at h2

theorem dropWhile_eq_self_of {α : Type} (pred : α → Bool) {l : List α}
    (h : ∀ x ∈ l, pred x = false) : l.dropWhile pred = l := by
  cases l with
  | nil => rfl
  | cons a t =>
    rw [List.dropWhile_cons, h a (by simp)]
    simp

theorem takeWhile_eq_self_of {α : Type} (pred : α → Bool) {l : List α}
    (h : ∀ x ∈ l, pred x = true) : l.takeWhile pred = l := by
  induction l with
  | nil => rfl
  | cons a t ih =>
    rw [List.takeWhile_cons, h a (by simp)]
    simp only [ite_true]
    rw [ih fun x hx => h x (by simp [hx])]

theorem component_eq_self {p : Str} (h : '/' ∉ p) : component p = p := by
  unfold component
  have h1 : p.reverse.dropWhile (· == '/') = p.reverse := by
    apply dropWhile_eq_self_of
    intro x hx
    have hxp : x ∈ p := List.mem_reverse.mp hx
    have : x ≠ '/' := fun he => h (he ▸ hxp)
    simpa using this
  rw [h1]
  have h2 : p.reverse.takeWhile (· != '/') = p.reverse := by
    apply takeWhile_eq_self_of
    intro x hx
    have hxp : x ∈ p := List.mem_reverse.mp hx
    have : x ≠ '/' := fun he => h (he ▸ hxp)
    simpa using this
  rw [h2, List.reverse_reverse]

theorem extOf_suffix (comp : Str) : extOf comp <:+ comp := by
  unfold extOf
  cases h : jsLastIndexOf comp ['.'] with
  | none => exact List.nil_suffix
  | some d =>
    show (if d = 0 then [] else if comp = ['.', '.'] then [] else comp.drop d) <:+ comp
    by_cases h0 : d = 0
    · rw [if_pos h0]; exact List.nil_suffix
    · rw [if_neg h0]
      by_cases hdd : comp = ['.', '.']
      · rw [if_pos hdd]; exact List.nil_suffix
      · rw [if_neg hdd]; exact List.drop_suffix d comp

theorem extOf_spec {comp : Str} (h : extOf comp ≠ []) :
    ∃ d, jsLastIndexOf comp ['.'] = some d ∧ 1 ≤ d ∧ extOf comp = comp.drop d ∧
      (extOf comp).head? = some '.' := by
  cases hd : jsLastIndexOf comp ['.'] with
  | none =>
    have : extOf comp = [] := by unfold extOf; rw [hd]
    exact absurd this h
  | some d =>
    have hext : extOf comp
        = if d = 0 then [] else if comp = ['.', '.'] then [] else comp.drop d := by
      unfold extOf; rw [hd]
    by_cases h0 : d = 0
    · rw [hext, if_pos h0] at h; simp at h
    · rw [if_neg h0] at hext
      by_cases hdd : comp = ['.', '.']
      · rw [hext, if_pos hdd] at h; simp at h
      · rw [if_neg hdd] at hext
        have hk' : lastIndexFrom comp ['.'] comp.length = some d := hd
        obtain ⟨_, h2, _⟩ := lastIndexFrom_spec hk'
        obtain ⟨q, hq⟩ := List.isPrefixOf_iff_prefix.mp h2
        refine ⟨d, rfl, by omega, hext, ?_⟩
        rw [hext, ← hq]
        rfl

theorem extOf_length_lt {comp : Str} (h : extOf comp ≠ []) :
    (extOf comp).length < comp.length := by
  obtain ⟨d, _, hd1, hdrop, _⟩ := extOf_spec h
  rw [hdrop] at h ⊢
  have hpos : 0 < (comp.drop d).length := List.length_pos.mpr h
  rw [List.length_drop] at hpos ⊢
  omega

theorem base_concat_ext {n : Str} (hslash : '/' ∉ n) :
    basename n (extname n) ++ extname n = n := by
  have hcomp : component n = n := component_eq_self hslash
  unfold basename extname
  rw [hcomp]
  by_cases hext : extOf n = []
  · rw [hext]
    simp
  · have hsuf : extOf n <:+ n := extOf_suffix n
    have hlt : (extOf n).length < n.length := extOf_length_lt hext
    have hne : extOf n ≠ n := fun he => by rw [he] at hlt; omega
    have hcond : (!(extOf n).isEmpty && (extOf n != n) && (extOf n).isSuffixOf n) = true := by
      simp only [Bool.and_eq_true, Bool.not_eq_true', bne_iff_ne, ne_eq]
      refine ⟨⟨?_, hne⟩, List.isSuffixOf_iff_suffix.mpr hsuf⟩
      cases hE : extOf n with
      | nil => exact absurd hE hext
      | cons a t => rfl
    rw [if_pos hcond]
    obtain ⟨t, ht⟩ := hsuf
    generalize hE : extOf n = e at ht ⊢
    rw [← ht]
    have hl : (t ++ e).length - e.length = t.length := by simp
    rw [hl, List.take_left]

theorem basename_head {p : Str} (e : Str) (hslash : '/' ∉ p) (hne : p ≠ []) :
    (basename p e).head? = p.head? ∧ basename p e ≠ [] := by
  have hcomp : component p = p := component_eq_self hslash
  unfold basename
  rw [hcomp]
  by_cases hguard : (!e.isEmpty && e != p && e.isSuffixOf p) = true
  · rw [if_pos hguard]
    simp only [Bool.and_eq_true, Bool.not_eq_true', bne_iff_ne, ne_eq] at hguard
    have hsuf : e <:+ p := List.isSuffixOf_iff_suffix.mp hguard.2
    have hlt : e.length < p.length := by
      rcases Nat.lt_or_ge e.length p.length with h | h
      · exact h
      · exact absurd (hsuf.eq_of_length_le h) hguard.1.2
    cases p with
    | nil => exact absurd rfl hne
    | cons c rest =>
      constructor
      · have : (c :: rest).length - e.length = ((c :: rest).length - e.length - 1) + 1 := by
          simp only [List.length_cons] at hlt ⊢
          omega
        rw [this]
        simp
      · intro hnil
        have := congrArg List.length hnil
        simp only [List.length_take, List.length_nil, List.length_cons] at this
        simp only [List.length_cons] at hlt
        omega
  · rw [if_neg hguard]
    exact ⟨rfl, hne⟩

/-! ## Kebab-case and PascalCase facts -/

theorem jsToUpper_ne_slash {c : Char} (h : isLowerAlnum c = true) : jsToUpper c ≠ '/' := by
  have hm := mem_lower_or_digit h
  have hall : (lowerAlphaChars ++ digitChars).all (fun c => jsToUpper c != '/') = true := by
    decide
  have := List.all_eq_true.mp hall c hm
  simpa using this

theorem kebabBase_parts {b : Str} (h : kebabBase b = true) :
    ∃ w ws, splitOnChar '-' b = w :: ws ∧ firstWordOk w = true ∧ ws ≠ [] ∧
      ∀ u ∈ ws, plusWordOk u = true := by
  cases hs : splitOnChar '-' b with
  | nil => exact absurd hs (splitOnChar_ne_nil _ _)
  | cons w ws =>
    have heq : kebabBase b = (firstWordOk w && !ws.isEmpty && ws.all plusWordOk) := by
      unfold kebabBase; rw [hs]
    rw [heq] at h
    simp only [Bool.and_eq_true, Bool.not_eq_true', List.all_eq_true] at h
    refine ⟨w, ws, rfl, h.1.1, ?_, fun u hu => h.2 u hu⟩
    intro hnil
    rw [hnil] at h
    simpa using h.1.2

theorem kebab_chars {b : Str} (h : kebabBase b = true) :
    ∀ x ∈ b, isLowerAlnum x = true ∨ x = '-' := by
  obtain ⟨w, ws, hs, hw, hne, hall⟩ := kebabBase_parts h
  intro x hx
  have hb : joinSep '-' (splitOnChar '-' b) = b := joinSep_splitOnChar '-' b
  rw [← hb, hs] at hx
  rcases mem_joinSep hx with h1 | ⟨u, hu, hxu⟩
  · exact Or.inr h1
  · rcases List.mem_cons.mp hu with rfl | hu'
    · cases u with
      | nil => simp [firstWordOk] at hw
      | cons c cs =>
        simp only [firstWordOk, Bool.and_eq_true, List.all_eq_true] at hw
        rcases List.mem_cons.mp hxu with rfl | hxc
        · exact Or.inl (by simp [isLowerAlnum, hw.1])
        · exact Or.inl (hw.2 x hxc)
    · have hu2 := hall u hu'
      simp only [plusWordOk, Bool.and_eq_true, List.all_eq_true] at hu2
      exact Or.inl (hu2.2 x hxu)

theorem capitalize_length (w : Str) : (capitalize w).length = w.length := by
  cases w <;> simp [capitalize]

theorem pascal_length_lt {b : Str} (h : kebabBase b = true) :
    (((splitOnChar '-' b).map capitalize).flatten).length < b.length := by
  obtain ⟨w, ws, hs, _, hne, _⟩ := kebabBase_parts h
  have hb : b.length = (joinSep '-' (w :: ws)).length := by
    conv_lhs => rw [← joinSep_splitOnChar '-' b, hs]
  rw [hs, hb, length_joinSep, List.length_flatten]
  have hmm : ((w :: ws).map capitalize).map List.length = (w :: ws).map List.length := by
    rw [List.map_map]
    apply List.map_congr_left
    intro x _
    exact capitalize_length x
  rw [hmm]
  simp only [List.map_cons, List.sum_cons]
  have hpos : 0 < ws.length := List.length_pos.mpr hne
  omega

theorem pascal_head {b : Str} (h : kebabBase b = true) :
    ∃ c t, isLowerAlpha c = true ∧
      ((splitOnChar '-' b).map capitalize).flatten = jsToUpper c :: t := by
  obtain ⟨w, ws, hs, hw, _, _⟩ := kebabBase_parts h
  cases w with
  | nil => simp [firstWordOk] at hw
  | cons c cs =>
    simp only [firstWordOk, Bool.and_eq_true] at hw
    refine ⟨c, cs.map jsToLower ++ (ws.map capitalize).flatten, hw.1, ?_⟩
    rw [hs]
    simp [capitalize]

theorem pascal_no_slash {b : Str} (h : kebabBase b = true) :
    '/' ∉ ((splitOnChar '-' b).map capitalize).flatten := by
  intro hx
  obtain ⟨u', hu', hxu'⟩ := List.mem_flatten.mp hx
  obtain ⟨u, hu, rfl⟩ := List.mem_map.mp hu'
  obtain ⟨w, ws, hs, hw, hne, hall⟩ := kebabBase_parts h
  rw [hs] at hu
  have hchars : ∀ x ∈ u, isLowerAlnum x = true := by
    rcases List.mem_cons.mp hu with rfl | hu2
    · cases u with
      | nil => intro x hx'; simp at hx'
      | cons c cs =>
        simp only [firstWordOk, Bool.and_eq_true, List.all_eq_true] at hw
        intro x hx'
        rcases List.mem_cons.mp hx' with rfl | hxc
        · simp [isLowerAlnum, hw.1]
        · exact hw.2 x hxc
    · have hu3 := hall u hu2
      simp only [plusWordOk, Bool.and_eq_true, List.all_eq_true] at hu3
      exact fun x hx' => hu3.2 x hx'
  cases u with
  | nil => simp [capitalize] at hxu'
  | cons c cs =>
    simp only [capitalize, List.mem_cons] at hxu'
    rcases hxu' with hc | hcs
    · exact jsToUpper_ne_slash (hchars c (by simp)) hc.symm
    · obtain ⟨d, hd, hde⟩ := List.mem_map.mp hcs
      have h1 : isLowerAlnum d = true := hchars d (by simp [hd])
      have h2 := jsToLower_lowerAlnum h1
      rw [h2.1] at hde
      exact h2.2 hde

theorem eq_cons_of_headq {l : Str} {c : Char} (h : l.head? = some c) : ∃ t, l = c :: t := by
  cases l with
  | nil => simp at h
  | cons a t =>
    simp only [List.head?_cons, Option.some.injEq] at h
    exact ⟨t, by rw [h]⟩

theorem kebabBase_cons_not_lower {c : Char} {r : Str} (h : isLowerAlpha c = false) :
    kebabBase (c :: r) = false := by
  by_cases hc : c = '-'
  · have hs : splitOnChar '-' (c :: r) = [] :: splitOnChar '-' r := by
      simp [splitOnChar, hc]
    unfold kebabBase
    rw [hs]
    show (firstWordOk [] && !(splitOnChar '-' r).isEmpty
      && (splitOnChar '-' r).all plusWordOk) = false
    simp [firstWordOk]
  · cases hs : splitOnChar '-' r with
    | nil => exact absurd hs (splitOnChar_ne_nil _ _)
    | cons w ws =>
      have hs2 : splitOnChar '-' (c :: r) = (c :: w) :: ws := by
        simp [splitOnChar, hc, hs]
      unfold kebabBase
      rw [hs2]
      show (firstWordOk (c :: w) && !ws.isEmpty && ws.all plusWordOk) = false
      simp [firstWordOk, h]

/-- Claim C8: a name accepted by `isKebabCase` is, after `toPascalCase`, no
longer accepted: the transform's output is not word-separated lowercase
any more. -/
theorem isKebabCase_toPascalCase_false (fileName : Str)
    (h : isKebabCase fileName = true) : isKebabCase (toPascalCase fileName) = false := by
  unfold isKebabCase at h
  unfold toPascalCase
  obtain ⟨c, t, hcl, hph⟩ := pascal_head h
  have hU := jsToUpper_outside hcl
  have hnoslash : '/' ∉ ((splitOnChar '-' (basename fileName (extname fileName))).map
      capitalize).flatten ++ extname fileName := by
    intro hx
    rcases List.mem_append.mp hx with hx | hx
    · exact pascal_no_slash h hx
    · have hsub : extname fileName <:+ component fileName := extOf_suffix _
      exact component_no_slash fileName (hsub.subset hx)
  have hne : ((splitOnChar '-' (basename fileName (extname fileName))).map
      capitalize).flatten ++ extname fileName ≠ [] := by
    rw [hph]
    simp
  obtain ⟨hh, _⟩ := basename_head
    (extname (((splitOnChar '-' (basename fileName (extname fileName))).map
      capitalize).flatten ++ extname fileName)) hnoslash hne
  unfold isKebabCase
  have hhead : (basename (((splitOnChar '-' (basename fileName (extname fileName))).map
      capitalize).flatten ++ extname fileName)
      (extname (((splitOnChar '-' (basename fileName (extname fileName))).map
        capitalize).flatten ++ extname fileName))).head? = some (jsToUpper c) := by
    rw [hh, hph]
    rfl
  obtain ⟨r, hr⟩ := eq_cons_of_headq hhead
  rw [hr]
  exact kebabBase_cons_not_lower hU.1

/-- Witness for `isKebabCase_toPascalCase_false` at `"my-button.vue"`. -/
theorem isKebabCase_toPascalCase_false_witness :
    isKebabCase (str "my-button.vue") = true ∧
      isKebabCase (toPascalCase (str "my-button.vue")) = false :=
  ⟨by decide, isKebabCase_toPascalCase_false (str "my-button.vue") (by decide)⟩

/-- Claim C10: `toPascalCase` is not idempotent: `'my-button.vue'` maps to
`'MyButton.vue'`, which a second application turns into `'Mybutton.vue'`. -/
theorem toPascalCase_not_idempotent :
    toPascalCase (str "my-button.vue") = str "MyButton.vue" ∧
    toPascalCase (str "MyButton.vue") = str "Mybutton.vue" ∧
    toPascalCase (toPascalCase (str "my-button.vue")) ≠ toPascalCase (str "my-button.vue") := by
  refine ⟨by decide, by decide, by decide⟩

/-! ## The matcher: characterization and exclusivity -/

theorem matchesImport_iff (cwd f s : Str) (m : RenameMapping) (al : PathAliases)
    (root : Str) :
    matchesImport cwd f s m al root = true ↔
      (nameFilter s m.oldName = true ∧ resolveRef cwd f s al root = some m.oldPath) := by
  unfold matchesImport resolveRef
  cases hra : resolveAliasImport cwd s al root with
  | some r => by_cases hf : nameFilter s m.oldName = true <;> simp [hf]
  | none =>
    by_cases hf : nameFilter s m.oldName = true <;>
      by_cases hh : (s.head? == some '.') = true <;>
        simp [hf, hh]

/-- Claim C1: matching is the name filter plus exact equality of the resolved
absolute path with the mapping's `oldPath`; hence a specifier matches at
most one of two mappings with equal `oldName` but different `oldPath`. -/
theorem matchesImport_exclusive (cwd f s : Str) (al : PathAliases) (root : Str)
    (A B : RenameMapping) (hname : A.oldName = B.oldName)
    (hpath : A.oldPath ≠ B.oldPath) :
    (∀ m : RenameMapping, matchesImport cwd f s m al root = true ↔
      (nameFilter s m.oldName = true ∧ resolveRef cwd f s al root = some m.oldPath)) ∧
    ¬(matchesImport cwd f s A al root = true ∧ matchesImport cwd f s B al root = true) := by
  refine ⟨fun m => matchesImport_iff cwd f s m al root, ?_⟩
  rintro ⟨hA, hB⟩
  have h1 := (matchesImport_iff cwd f s A al root).mp hA
  have h2 := (matchesImport_iff cwd f s B al root).mp hB
  rw [h1.2] at h2
  exact hpath (by simpa using h2.2)

/-- Witness for `matchesImport_exclusive`: the two `my-button.vue` files of
the repository's fixture, referenced through the `@` alias. -/
theorem matchesImport_exclusive_witness :
    (∀ m : RenameMapping, matchesImport (str "/") (str "/r/src/pages/home.ts")
        (str "@/components/my-button.vue") m DEFAULT_ALIASES (str "/r") = true ↔
      (nameFilter (str "@/components/my-button.vue") m.oldName = true ∧
        resolveRef (str "/") (str "/r/src/pages/home.ts")
          (str "@/components/my-button.vue") DEFAULT_ALIASES (str "/r") = some m.oldPath)) ∧
    ¬(matchesImport (str "/") (str "/r/src/pages/home.ts")
        (str "@/components/my-button.vue")
        (mkMapping (str "/r/src/components/my-button.vue")) DEFAULT_ALIASES (str "/r") = true ∧
      matchesImport (str "/") (str "/r/src/pages/home.ts")
        (str "@/components/my-button.vue")
        (mkMapping (str "/r/src/shared/my-button.vue")) DEFAULT_ALIASES (str "/r") = true) :=
  matchesImport_exclusive _ _ _ _ _ _ _ (by decide) (by decide)

/-! ## The rewrite is terminal (C6) -/

theorem mkMapping_oldName (fp : Str) : (mkMapping fp).oldName = component fp := rfl

theorem mkMapping_newName (fp : Str) :
    (mkMapping fp).newName = toPascalCase (component fp) := rfl

theorem nameFilter_suffix {s old : Str} (h : nameFilter s old = true) : old <:+ s := by
  unfold nameFilter at h
  simp only [Bool.or_eq_true, beq_iff_eq] at h
  rcases h with (h | h) | h
  · have h1 : ('/' :: old) <:+ s := List.isSuffixOf_iff_suffix.mp h
    have h0 : old <:+ '/' :: old := ⟨['/'], rfl⟩
    exact h0.trans h1
  · rw [h]
    exact ⟨['.', '/'], rfl⟩
  · rw [h]

theorem nameFilter_false_of_not_suffix {s old : Str} (h : ¬ old <:+ s) :
    nameFilter s old = false := by
  by_cases hn : nameFilter s old = true
  · exact absurd (nameFilter_suffix hn) h
  · simp only [Bool.not_eq_true] at hn
    exact hn

theorem matchesImport_false_of_filter {cwd f s : Str} {m : RenameMapping}
    {al : PathAliases} {root : Str} (h : nameFilter s m.oldName = false) :
    matchesImport cwd f s m al root = false := by
  by_cases hm : matchesImport cwd f s m al root = true
  · have := ((matchesImport_iff cwd f s m al root).mp hm).1
    rw [h] at this
    exact absurd this (by simp)
  · simp only [Bool.not_eq_true] at hm
    exact hm

theorem suffix_append_cancel {u v e : Str} (h : u ++ e <:+ v ++ e) : u <:+ v := by
  obtain ⟨t, ht⟩ := h
  refine ⟨t, ?_⟩
  have h2 : (t ++ u) ++ e = v ++ e := by
    rw [List.append_assoc]
    exact ht
  exact List.append_cancel_right h2

theorem kebab_concat_not_suffix (pre b e : Str) (hkb : kebabBase b = true) :
    ¬ (b ++ e <:+ pre ++ (((splitOnChar '-' b).map capitalize).flatten ++ e)) := by
  intro hsuf
  rw [← List.append_assoc] at hsuf
  have h1 : b <:+ pre ++ ((splitOnChar '-' b).map capitalize).flatten :=
    suffix_append_cancel hsuf
  have h2 : ((splitOnChar '-' b).map capitalize).flatten <:+
      pre ++ ((splitOnChar '-' b).map capitalize).flatten := List.suffix_append _ _
  have hlen : (((splitOnChar '-' b).map capitalize).flatten).length ≤ b.length :=
    le_of_lt (pascal_length_lt hkb)
  have h3 : ((splitOnChar '-' b).map capitalize).flatten <:+ b :=
    List.suffix_of_suffix_length_le h2 h1 hlen
  obtain ⟨c, t, hcl, hph⟩ := pascal_head hkb
  have hU := jsToUpper_outside hcl
  have hmem : jsToUpper c ∈ b := h3.subset (by rw [hph]; simp)
  rcases kebab_chars hkb _ hmem with h4 | h4
  · have hcontr := hU.2.1
    rw [h4] at hcontr
    exact absurd hcontr (by simp)
  · exact hU.2.2.1 h4

theorem kebab_not_suffix_pascal (pre : Str) {old : Str} (hslash : '/' ∉ old)
    (hk : isKebabCase old = true) : ¬ old <:+ pre ++ toPascalCase old := by
  intro hsuf
  have hbe : basename old (extname old) ++ extname old = old := base_concat_ext hslash
  unfold isKebabCase at hk
  have h0 : toPascalCase old
      = ((splitOnChar '-' (basename old (extname old))).map capitalize).flatten
        ++ extname old := rfl
  rw [h0] at hsuf
  nth_rewrite 1 [← hbe] at hsuf
  exact kebab_concat_not_suffix pre _ _ hk hsuf

/-- Claim C6: once a matched specifier has been rewritten via
`replaceImportPath`, re-running `matchesImport` on the rewritten specifier
against the same plan-builder mapping yields no match. -/
theorem rewrite_terminal (cwd f s : Str) (al : PathAliases) (root : Str)
    (files : List Str) (m : RenameMapping) (hm : m ∈ findKebabCaseFiles files)
    (hmatch : matchesImport cwd f s m al root = true) :
    matchesImport cwd f (replaceImportPath s m.oldName m.newName) m al root = false := by
  obtain ⟨fp, hfp, hif⟩ := List.mem_filterMap.mp hm
  by_cases hkc : isKebabCase (component fp) = true
  · rw [if_pos hkc] at hif
    obtain rfl : m = mkMapping fp := by
      injection hif with h
      exact h.symm
    have hk2 : isKebabCase (mkMapping fp).oldName = true := by
      rw [mkMapping_oldName]
      exact hkc
    have hne : (mkMapping fp).oldName ≠ [] := by
      intro h0
      rw [h0] at hk2
      exact absurd hk2 (by decide)
    have hfilter : nameFilter s (mkMapping fp).oldName = true :=
      ((matchesImport_iff cwd f s (mkMapping fp) al root).mp hmatch).1
    have hsuf : (mkMapping fp).oldName <:+ s := nameFilter_suffix hfilter
    obtain ⟨t, ht⟩ := hsuf
    have hrw : replaceImportPath s (mkMapping fp).oldName (mkMapping fp).newName
        = t ++ (mkMapping fp).newName :=
      replaceImportPath_of_suffix _ hne ⟨t, ht⟩ t ht
    rw [hrw]
    apply matchesImport_false_of_filter
    apply nameFilter_false_of_not_suffix
    rw [mkMapping_oldName, mkMapping_newName]
    exact kebab_not_suffix_pascal t (component_no_slash fp) hkc
  · rw [if_neg hkc] at hif
    exact absurd hif (by simp)

/-- Witness for `rewrite_terminal`: the plan-builder mapping for
`/a/my-button.vue` and the relative reference `./my-button.vue`. -/
theorem rewrite_terminal_witness :
    matchesImport (str "/") (str "/a/x.ts")
      (replaceImportPath (str "./my-button.vue")
        (mkMapping (str "/a/my-button.vue")).oldName
        (mkMapping (str "/a/my-button.vue")).newName)
      (mkMapping (str "/a/my-button.vue")) DEFAULT_ALIASES (str "/a") = false :=
  rewrite_terminal (str "/") (str "/a/x.ts") (str "./my-button.vue") DEFAULT_ALIASES
    (str "/a") [str "/a/my-button.vue"] (mkMapping (str "/a/my-button.vue"))
    (by decide) (by decide)

/-! ## Extension-less references (C2) -/

/-- Claim C2 (evaluation of the code at the claim's scenario): the mapping the
plan builder produces for `/p/src/components/my-button.vue` matches the
extension-spelled relative reference `./my-button.vue` and rewrites it to
`./MyButton.vue`; but the extension-less spelling `./my-button` fails
`matchesImport`'s name filter (the mapping's `oldName` is the full file
name `my-button.vue`), so it is never matched, and neither is the aliased
extension-less spelling. -/
theorem extensionless_reference_not_matched :
    (mkMapping (str "/p/src/components/my-button.vue")
      ∈ findKebabCaseFiles [str "/p/src/components/my-button.vue"]) ∧
    matchesImport (str "/") (str "/p/src/components/index.ts") (str "./my-button.vue")
      (mkMapping (str "/p/src/components/my-button.vue")) DEFAULT_ALIASES
      (str "/p") = true ∧
    replaceImportPath (str "./my-button.vue")
      (mkMapping (str "/p/src/components/my-button.vue")).oldName
      (mkMapping (str "/p/src/components/my-button.vue")).newName
      = str "./MyButton.vue" ∧
    matchesImport (str "/") (str "/p/src/components/index.ts") (str "./my-button")
      (mkMapping (str "/p/src/components/my-button.vue")) DEFAULT_ALIASES
      (str "/p") = false ∧
    matchesImport (str "/") (str "/p/src/pages/home.ts") (str "@/components/my-button")
      (mkMapping (str "/p/src/components/my-button.vue")) DEFAULT_ALIASES
      (str "/p") = false := by
  refine ⟨by decide, by decide, by decide, by decide, by decide⟩

/-! ## The plan builder and pre-existing targets (C3) -/

/-- Claim C3, counterexample: with both `/p/my-button.vue` and the computed
target `/p/MyButton.vue` already existing on disk, `createMappingsFromFiles`
still produces the mapping whose `newPath` is the pre-existing
`/p/MyButton.vue`, and so does `findKebabCaseFiles`: no candidate is
rejected for a pre-existing target. -/
theorem plan_builder_no_collision_check :
    (createMappingsFromFiles [str "/p/my-button.vue", str "/p/MyButton.vue"]
        [str "/p/my-button.vue"]).map RenameMapping.newPath = [str "/p/MyButton.vue"] ∧
    (str "/p/MyButton.vue") ∈ [str "/p/my-button.vue", str "/p/MyButton.vue"] ∧
    (findKebabCaseFiles [str "/p/my-button.vue"]).map RenameMapping.newPath
      = [str "/p/MyButton.vue"] := by
  refine ⟨by decide, by decide, by decide⟩

/-- Claim C3, amended: the builders never consult the computed `newPath`:
`createMappingsFromFiles` keeps exactly the inputs that exist on disk and
have a kebab-case base name, `findKebabCaseFiles` exactly the kebab-case
candidates, each mapped through `mkMapping` — whether or not a file already
exists at the mapping's `newPath`. -/
theorem createMappings_cons (disk : List Str) (fp : Str) (rest : List Str) :
    createMappingsFromFiles disk (fp :: rest)
      = if disk.contains fp && isKebabCase (component fp)
        then mkMapping fp :: createMappingsFromFiles disk rest
        else createMappingsFromFiles disk rest := by
  simp only [createMappingsFromFiles, List.filterMap_cons]
  cases h1 : disk.contains fp with
  | false => rfl
  | true =>
    cases h2 : isKebabCase (component fp) with
    | false => rfl
    | true => rfl

theorem findKebab_cons (fp : Str) (rest : List Str) :
    findKebabCaseFiles (fp :: rest)
      = if isKebabCase (component fp)
        then mkMapping fp :: findKebabCaseFiles rest
        else findKebabCaseFiles rest := by
  simp only [findKebabCaseFiles, List.filterMap_cons]
  cases h2 : isKebabCase (component fp) with
  | false => rfl
  | true => rfl

theorem plan_builders_characterization (disk files vueFiles : List Str) :
    createMappingsFromFiles disk files
      = (files.filter
          (fun fp => disk.contains fp && isKebabCase (component fp))).map mkMapping ∧
    findKebabCaseFiles vueFiles
      = (vueFiles.filter (fun fp => isKebabCase (component fp))).map mkMapping := by
  constructor
  · induction files with
    | nil => rfl
    | cons fp rest ih =>
      rw [createMappings_cons, List.filter_cons]
      cases h1 : (disk.contains fp && isKebabCase (component fp)) with
      | false =>
        show createMappingsFromFiles disk rest
          = ((List.filter (fun fp => disk.contains fp && isKebabCase (component fp)))
              rest).map mkMapping
        exact ih
      | true =>
        show mkMapping fp :: createMappingsFromFiles disk rest
          = mkMapping fp
            :: ((List.filter
                (fun fp => disk.contains fp && isKebabCase (component fp))) rest).map mkMapping
        exact congrArg _ ih
  · induction vueFiles with
    | nil => rfl
    | cons fp rest ih =>
      rw [findKebab_cons, List.filter_cons]
      cases h2 : isKebabCase (component fp) with
      | false =>
        show findKebabCaseFiles rest
          = ((List.filter (fun fp => isKebabCase (component fp))) rest).map mkMapping
        exact ih
      | true =>
        show mkMapping fp :: findKebabCaseFiles rest
          = mkMapping fp
            :: ((List.filter (fun fp => isKebabCase (component fp))) rest).map mkMapping
        exact congrArg _ ih

/-! ## Alias prefix exactness (C7) -/

/-- Claim C7, counterexample: under the alias table `{"@/": "src"}` — an alias
that itself ends in `'/'` — the specifier `"@/foo"` does resolve, although
it neither equals the alias nor starts with the alias followed by `'/'`. -/
theorem alias_trailing_slash_counterexample :
    resolveAliasImport (str "/") (str "@/foo") [(str "@/", str "src")] (str "/r") ≠ none ∧
    str "@/foo" ≠ str "@/" ∧
    ((str "@/" ++ ['/']).isPrefixOf (str "@/foo")) = false := by
  refine ⟨by decide, by decide, by decide⟩

/-- Claim C7, amended: `resolveAliasImport` resolves a specifier exactly when
some alias entry's normalized prefix (the alias itself when it already ends
in `'/'`, otherwise the alias plus `'/'`) starts the specifier, or the
specifier equals the alias; for every other specifier it returns `none`.
In particular an alias `"@"` resolves only `"@"` itself and `"@/..."`,
never a specifier `"@foo/..."` whose first segment merely begins with
`"@"`. -/
theorem resolveAliasImport_prefix_exact (cwd spec : Str) (aliases : PathAliases)
    (root : Str) :
    (resolveAliasImport cwd spec aliases root).isSome
      = aliases.any (fun ap =>
          (if ap.1.getLast? == some '/' then ap.1 else ap.1 ++ ['/']).isPrefixOf spec
            || spec == ap.1) := by
  induction aliases with
  | nil => rfl
  | cons ap rest ih =>
    obtain ⟨al, apath⟩ := ap
    simp only [resolveAliasImport, List.any_cons]
    cases h : ((if al.getLast? == some '/' then al else al ++ ['/']).isPrefixOf spec
        || spec == al) with
    | true => rfl
    | false => exact ih

/-! ## `applyImportUpdates` skips unrecoverable updates (C9) -/

theorem lookupFile_cons (q : Str) (b : SourceAst) (l : Project) (f : Str) :
    lookupFile ((q, b) :: l) f = if (q == f) = true then some b else lookupFile l f := by
  cases hq : (q == f) with
  | true => simp [lookupFile, List.find?_cons, hq]
  | false => simp [lookupFile, List.find?_cons, hq]

theorem lookupFile_applyImportUpdates (project : Project) (us : List ImportUpdate)
    (f : Str) :
    lookupFile (applyImportUpdates project us) f
      = (lookupFile project f).map (rewriteAst (us.filter (fun u => u.file == f))) := by
  induction project with
  | nil => rfl
  | cons fa rest ih =>
    obtain ⟨q, ast⟩ := fa
    have hstep : applyImportUpdates ((q, ast) :: rest) us
        = (q, rewriteAst (us.filter (fun u => u.file == q)) ast)
          :: applyImportUpdates rest us := rfl
    rw [hstep, lookupFile_cons, lookupFile_cons]
    cases hq : (q == f) with
    | true =>
      have hqe : q = f := by simpa using hq
      subst hqe
      simp
    | false => simp [ih]

theorem rewriteSpec_eq_self {usf : List ImportUpdate} {ast : SourceAst} {s : Str}
    (h : ∀ u ∈ usf, specOccurs u.oldImport ast = false)
    (hs : specOccurs s ast = true) : rewriteSpec usf s = s := by
  unfold rewriteSpec
  cases hf : usf.find? (fun u => u.oldImport == s) with
  | none => rfl
  | some u =>
    have hmem : u ∈ usf := List.mem_of_find?_eq_some hf
    have heq := List.find?_some hf
    have heq' : u.oldImport = s := by simpa using heq
    have hcontr := h u hmem
    rw [heq', hs] at hcontr
    exact absurd hcontr (by simp)

theorem rewriteAst_id {usf : List ImportUpdate} {ast : SourceAst}
    (h : ∀ u ∈ usf, specOccurs u.oldImport ast = false) : rewriteAst usf ast = ast := by
  obtain ⟨st, dy, re⟩ := ast
  unfold rewriteAst
  have h1 : st.map
      (fun si => { si with spec := rewriteSpec usf si.spec }) = st := by
    trans (st.map id)
    · apply List.map_congr_left
      intro si hsi
      obtain ⟨l, s⟩ := si
      have hso : specOccurs s (SourceAst.mk st dy re) = true := by
        unfold specOccurs
        simp only [Bool.or_eq_true, List.any_eq_true]
        exact Or.inl (Or.inl ⟨⟨l, s⟩, hsi, by simp⟩)
      have hrw := rewriteSpec_eq_self h hso
      show StaticImport.mk l (rewriteSpec usf s) = id (StaticImport.mk l s)
      rw [hrw]
      rfl
    · simp
  have h2 : dy.map
      (fun di => { di with spec := rewriteSpec usf di.spec }) = dy := by
    trans (dy.map id)
    · apply List.map_congr_left
      intro di hdi
      obtain ⟨l, qu, s⟩ := di
      have hso : specOccurs s (SourceAst.mk st dy re) = true := by
        unfold specOccurs
        simp only [Bool.or_eq_true, List.any_eq_true]
        exact Or.inl (Or.inr ⟨⟨l, qu, s⟩, hdi, by simp⟩)
      have hrw := rewriteSpec_eq_self h hso
      show DynamicImport.mk l qu (rewriteSpec usf s) = id (DynamicImport.mk l qu s)
      rw [hrw]
      rfl
    · simp
  have h3 : re.map
      (fun r => match r.spec with
        | some sp => { r with spec := some (rewriteSpec usf sp) }
        | none => r) = re := by
    trans (re.map id)
    · apply List.map_congr_left
      intro r hre
      obtain ⟨l, os⟩ := r
      cases os with
      | none => rfl
      | some sp =>
        have hso : specOccurs sp (SourceAst.mk st dy re) = true := by
          unfold specOccurs
          simp only [Bool.or_eq_true, List.any_eq_true]
          exact Or.inr ⟨⟨l, some sp⟩, hre, by simp⟩
        have hrw := rewriteSpec_eq_self h hso
        show ReExport.mk l (some (rewriteSpec usf sp)) = id (ReExport.mk l (some sp))
        rw [hrw]
        rfl
    · simp
  show SourceAst.mk _ _ _ = SourceAst.mk st dy re
  rw [h1, h2, h3]

/-- Claim C9: `applyImportUpdates` rewrites only where the update's
`oldImport` is recoverable verbatim: when none of the updates aimed at a
file equal the current specifier text of any of its imports, dynamic
imports, or re-exports — or when the file is not loaded in the project at
all — that file's content is left unchanged. -/
theorem applyImportUpdates_skips (project : Project) (updates : List ImportUpdate)
    (f : Str)
    (h : ∀ u ∈ updates, u.file = f →
      (lookupFile project f).all (fun ast => !(specOccurs u.oldImport ast)) = true) :
    lookupFile (applyImportUpdates project updates) f = lookupFile project f := by
  rw [lookupFile_applyImportUpdates]
  cases hl : lookupFile project f with
  | none => rfl
  | some ast =>
    show some (rewriteAst (updates.filter (fun u => u.file == f)) ast) = some ast
    have hid : rewriteAst (updates.filter (fun u => u.file == f)) ast = ast := by
      apply rewriteAst_id
      intro u hu
      have hmem := List.mem_filter.mp hu
      have hfile : u.file = f := by simpa using hmem.2
      have := h u hmem.1 hfile
      rw [hl] at this
      simpa using this
    rw [hid]

/-- Witness for `applyImportUpdates_skips`: one loaded file whose only
reference is `./x`, one update whose `oldImport` (`./gone`) no longer occurs
there, and one update aimed at a file absent from the project. -/
theorem applyImportUpdates_skips_witness :
    lookupFile
      (applyImportUpdates
        [(str "/a.ts", SourceAst.mk [StaticImport.mk 1 (str "./x")] [] [])]
        [ImportUpdate.mk (str "/a.ts") (str "./gone") (str "./Gone") 1,
         ImportUpdate.mk (str "/b.ts") (str "./x") (str "./X") 1])
      (str "/a.ts")
    = lookupFile [(str "/a.ts", SourceAst.mk [StaticImport.mk 1 (str "./x")] [] [])]
        (str "/a.ts") :=
  applyImportUpdates_skips _ _ _ (by decide)

/-! ## Dry-run frame property (C4) -/

/-- Claim C4: a dry run computes exactly the same `mappings` and
`importUpdates` as a real run started from the same world, and leaves the
world — every file's path and content — unchanged. -/
theorem renameVueFiles_dryRun_frame (cwd : Str) (aliases : PathAliases) (root : Str)
    (w : World) :
    (renameVueFiles cwd aliases root true w).1.mappings
      = (renameVueFiles cwd aliases root false w).1.mappings ∧
    (renameVueFiles cwd aliases root true w).1.importUpdates
      = (renameVueFiles cwd aliases root false w).1.importUpdates ∧
    (renameVueFiles cwd aliases root true w).2 = w := by
  simp only [renameVueFiles]
  cases h : (findKebabCaseFiles w.vueFiles).isEmpty with
  | true => simp
  | false => simp

end VPM
